import Mathlib

/-!
Verification of the World component of crafti (src/world.cpp).

The C++ source is shallowly embedded: machine `int`s become `Int`
(the bit operations `>> 3` and `& 7` are arithmetic shift and
two's-complement mask, embedded via `Int`'s arithmetic shift and
`Int.land`), the mutable `World` object becomes a record threaded
through the operations, and the raw `FILE*` byte stream becomes a
list of the fields the code reads and writes with single
`fread`/`fwrite` calls.  Collaborator types that live outside
`world.cpp` (Chunk internals, the noise sampler, `GLFix`, the block
renderer) are modelled from the specification and kept opaque as
parameters wherever the source treats them as opaque.
-/

/-- Block value with auxiliary data bits (`BLOCK_WDATA` in the source). -/
abbrev BLOCK_WDATA := Nat

/-- Modelled from the spec: the designated passable "air" block constant.
The block constants live in a header that is not part of this repository;
only their distinctness matters to `World`. -/
def BLOCK_AIR : BLOCK_WDATA := 0

/-- Modelled from the spec: the designated opaque "stone" block constant. -/
def BLOCK_STONE : BLOCK_WDATA := 1

/-- Chunk edge length; `world.cpp` statically asserts `Chunk::SIZE == 8`. -/
def CHUNK_SIZE : Int := 8

/-- `getLocal(global)` from world.cpp: `global & 0b111`.  C's `&` on a
two's-complement `int` is `Int.land`. -/
def getLocal (global : Int) : Int := Int.land global 7

/-- `getChunk(global)` from world.cpp: `global >> 3`.  C's `>>` on a
negative `int` is an arithmetic shift, which is `Int`'s `>>>`. -/
def getChunk (global : Int) : Int := global >>> (3 : Int)

section CoordinateLemmas

lemma nat_land_seven (n : Nat) : n &&& 7 = n % 8 := by
  have h := Nat.and_pow_two_sub_one_eq_mod n 3
  norm_num at h
  exact h

lemma testBit_seven (j : Nat) : Nat.testBit 7 j = decide (j < 3) := by
  match j with
  | 0 => decide
  | 1 => decide
  | 2 => decide
  | j + 3 =>
    have h7 : Nat.testBit 7 (j + 3) = false := by
      apply Nat.testBit_eq_false_of_lt
      calc (7 : Nat) < 2 ^ 3 := by norm_num
        _ ≤ 2 ^ (j + 3) := Nat.pow_le_pow_right (by norm_num) (by omega)
    simp [h7]

lemma nat_ldiff_seven (n : Nat) : Nat.ldiff 7 n = 7 - n % 8 := by
  have hlt : n % 8 < 8 := Nat.mod_lt _ (by norm_num)
  have hxor : 7 - n % 8 = 7 ^^^ (n % 8) := by
    have h : ∀ r, r < 8 → 7 - r = 7 ^^^ r := by decide
    exact h _ hlt
  rw [hxor]
  apply Nat.eq_of_testBit_eq
  intro i
  rw [Nat.testBit_ldiff, Nat.testBit_xor]
  have h8 : (8 : Nat) = 2 ^ 3 := by norm_num
  rw [h8, Nat.testBit_mod_two_pow, testBit_seven]
  by_cases hi : i < 3 <;> simp [hi]

lemma getLocal_ofNat (n : Nat) : getLocal (Int.ofNat n) = Int.ofNat (n % 8) := by
  show Int.land (Int.ofNat n) (Int.ofNat 7) = Int.ofNat (n % 8)
  rw [show Int.land (Int.ofNat n) (Int.ofNat 7) = Int.ofNat (n &&& 7) from rfl,
    nat_land_seven]

lemma getLocal_negSucc (n : Nat) :
    getLocal (Int.negSucc n) = Int.ofNat (7 - n % 8) := by
  show Int.land (Int.negSucc n) (Int.ofNat 7) = Int.ofNat (7 - n % 8)
  rw [show Int.land (Int.negSucc n) (Int.ofNat 7) = Int.ofNat (Nat.ldiff 7 n) from rfl,
    nat_ldiff_seven]

lemma getChunk_ofNat (n : Nat) : getChunk (Int.ofNat n) = Int.ofNat (n / 8) := by
  have h : getChunk (Int.ofNat n) = Int.ofNat (n >>> 3) := rfl
  rw [h, Nat.shiftRight_eq_div_pow]

lemma getChunk_negSucc (n : Nat) :
    getChunk (Int.negSucc n) = Int.negSucc (n / 8) := by
  have h : getChunk (Int.negSucc n) = Int.negSucc (n >>> 3) := rfl
  rw [h, Nat.shiftRight_eq_div_pow]

end CoordinateLemmas

/-- C2: for every integer world coordinate `g`, positive, negative or zero,
`getChunk g * 8 + getLocal g = g` and `0 ≤ getLocal g < 8`; hence `getChunk`
is the floor division of the coordinate by the chunk edge length. -/
theorem coordinate_decomposition (g : Int) :
    getChunk g * 8 + getLocal g = g ∧ 0 ≤ getLocal g ∧ getLocal g < 8 := by
  cases g with
  | ofNat n =>
    rw [getChunk_ofNat, getLocal_ofNat]
    simp only [Int.ofNat_eq_coe]
    omega
  | negSucc n =>
    rw [getChunk_negSucc, getLocal_negSucc]
    simp only [Int.negSucc_eq, Int.ofNat_eq_coe]
    omega

/-- `BLOCK_CHANGE` from world.h (declaration not in this repository's src
tree, but its fields are fully determined by the uses in world.cpp):
target chunk coordinate, target local coordinate, block value. -/
structure BLOCK_CHANGE where
  chunk_x : Int
  chunk_y : Int
  chunk_z : Int
  local_x : Int
  local_y : Int
  local_z : Int
  block : BLOCK_WDATA
deriving DecidableEq, Repr

/-- Modelled from the spec: Chunk is an external collaborator (chunk.cpp is
not part of this repository slice).  It exposes public immutable chunk
coordinates, local get/set/change of blocks, a dirty-mark operation, and
its own serialization.  The block storage is a total function on local
coordinates (world.cpp only ever passes values produced by `getLocal`). -/
structure Chunk where
  x : Int
  y : Int
  z : Int
  blocks : Int → Int → Int → BLOCK_WDATA
  dirty : Bool

/-- Modelled from the spec: `Chunk::getLocalBlock`. -/
def Chunk.getLocalBlock (c : Chunk) (lx ly lz : Int) : BLOCK_WDATA :=
  c.blocks lx ly lz

/-- Modelled from the spec: `Chunk::setLocalBlock`, a raw overwrite of one
local block. -/
def Chunk.setLocalBlock (c : Chunk) (lx ly lz : Int) (b : BLOCK_WDATA) : Chunk :=
  { c with blocks := fun a bb cc =>
      if a = lx ∧ bb = ly ∧ cc = lz then b else c.blocks a bb cc }

/-- Modelled from the spec: `Chunk::changeLocalBlock`, the "change"
operation with chunk-level side effects such as remesh marking. -/
def Chunk.changeLocalBlock (c : Chunk) (lx ly lz : Int) (b : BLOCK_WDATA) : Chunk :=
  { c.setLocalBlock lx ly lz b with dirty := true }

/-- Modelled from the spec: `Chunk::setDirty`. -/
def Chunk.setDirty (c : Chunk) : Chunk := { c with dirty := true }

/-- The `World` state: seed (the heap cell's value), the pending-change
queue, the view radius `field_of_view`, the owning chunk registry
`all_chunks`, the non-owning visible set (pointers into the registry,
embedded as the chunk coordinates they designate), the `loaded` flag and
the centered chunk coordinate. -/
structure World where
  seed : Int
  pending_block_changes : List BLOCK_CHANGE
  field_of_view : Int
  all_chunks : List Chunk
  visible_chunks : List (Int × Int × Int)
  loaded : Bool
  cen_x : Int
  cen_y : Int
  cen_z : Int

/-- `World::findChunk`: first registry chunk with the given coordinates. -/
def findChunk (cs : List Chunk) (x y z : Int) : Option Chunk :=
  cs.find? (fun c => c.x = x ∧ c.y = y ∧ c.z = z)

/-- In-place mutation through the pointer returned by `findChunk`:
apply `f` to the first chunk with the given coordinates. -/
def updateFirstChunk (cs : List Chunk) (x y z : Int) (f : Chunk → Chunk) : List Chunk :=
  match cs with
  | [] => []
  | c :: rest =>
    if c.x = x ∧ c.y = y ∧ c.z = z then f c :: rest
    else c :: updateFirstChunk rest x y z f

/-- `World::getBlock`.  `H` is `World::HEIGHT` (declared in world.h, not in
this repository's src tree). -/
def getBlock (H : Int) (w : World) (x y z : Int) : BLOCK_WDATA :=
  let chunk_x := getChunk x
  let chunk_y := getChunk y
  let chunk_z := getChunk z
  match findChunk w.all_chunks chunk_x chunk_y chunk_z with
  | none => if chunk_y = H then BLOCK_AIR else BLOCK_STONE
  | some c => c.getLocalBlock (getLocal x) (getLocal y) (getLocal z)

/-- `World::setBlock`: apply directly to a present chunk, otherwise append
a pending-change record. -/
def setBlock (w : World) (x y z : Int) (block : BLOCK_WDATA) : World :=
  let chunk_x := getChunk x
  let chunk_y := getChunk y
  let chunk_z := getChunk z
  let local_x := getLocal x
  let local_y := getLocal y
  let local_z := getLocal z
  match findChunk w.all_chunks chunk_x chunk_y chunk_z with
  | some _ =>
    { w with all_chunks := (updateFirstChunk w.all_chunks chunk_x chunk_y chunk_z
        (fun c => c.setLocalBlock local_x local_y local_z block)) }
  | none =>
    { w with pending_block_changes := w.pending_block_changes ++
        [⟨chunk_x, chunk_y, chunk_z, local_x, local_y, local_z, block⟩] }

/-- `World::changeBlock`: like `setBlock` but through
`Chunk::changeLocalBlock`. -/
def changeBlock (w : World) (x y z : Int) (block : BLOCK_WDATA) : World :=
  let chunk_x := getChunk x
  let chunk_y := getChunk y
  let chunk_z := getChunk z
  let local_x := getLocal x
  let local_y := getLocal y
  let local_z := getLocal z
  match findChunk w.all_chunks chunk_x chunk_y chunk_z with
  | some _ =>
    { w with all_chunks := (updateFirstChunk w.all_chunks chunk_x chunk_y chunk_z
        (fun c => c.changeLocalBlock local_x local_y local_z block)) }
  | none =>
    { w with pending_block_changes := w.pending_block_changes ++
        [⟨chunk_x, chunk_y, chunk_z, local_x, local_y, local_z, block⟩] }

/-- `World::blockAction`.  The renderer's context-sensitive action is an
external collaborator, passed as `action` (it receives the block value, the
local coordinate and the chunk, and returns the mutated chunk and the
success flag). -/
def blockAction (action : BLOCK_WDATA → Int → Int → Int → Chunk → Chunk × Bool)
    (w : World) (x y z : Int) : World × Bool :=
  let chunk_x := getChunk x
  let chunk_y := getChunk y
  let chunk_z := getChunk z
  let local_x := getLocal x
  let local_y := getLocal y
  let local_z := getLocal z
  match findChunk w.all_chunks chunk_x chunk_y chunk_z with
  | none => (w, false)
  | some c =>
    ({ w with all_chunks := (updateFirstChunk w.all_chunks chunk_x chunk_y chunk_z
        (fun c' => (action (c'.getLocalBlock local_x local_y local_z)
          local_x local_y local_z c').1)) },
     (action (c.getLocalBlock local_x local_y local_z) local_x local_y local_z c).2)

/-- Mark the first chunk with the given coordinates dirty, if present; the
no-op when it is absent mirrors `if(Chunk *c = findChunk(..)) c->setDirty()`. -/
def markDirtyAt (cs : List Chunk) (x y z : Int) : List Chunk :=
  match findChunk cs x y z with
  | none => cs
  | some _ => updateFirstChunk cs x y z Chunk.setDirty

/-- `World::generateChunk`.  `terrain` stands for `Chunk::generate`
(modelled from the spec: chunk generation samples the world's seeded noise
generator, so it is a function of the seed and the chunk coordinate).
The six axis-adjacent neighbors are marked dirty, the new chunk is
generated and appended to the registry, and the pending-change queue is
drained in a single pass: matching entries are applied to the new chunk
and removed, non-matching entries are kept in order. -/
def generateChunk (terrain : Int → Int → Int → Int → (Int → Int → Int → BLOCK_WDATA))
    (w : World) (x y z : Int) : World × Chunk :=
  let cs := markDirtyAt (markDirtyAt (markDirtyAt (markDirtyAt (markDirtyAt (markDirtyAt
      w.all_chunks (x - 1) y z) (x + 1) y z) x (y - 1) z) x (y + 1) z) x y (z - 1)) x y (z + 1)
  let c0 : Chunk := { x := x, y := y, z := z, blocks := terrain w.seed x y z, dirty := false }
  let drained := w.pending_block_changes.foldl
    (fun (acc : Chunk × List BLOCK_CHANGE) bc =>
      if bc.chunk_x = x ∧ bc.chunk_y = y ∧ bc.chunk_z = z then
        (acc.1.setLocalBlock bc.local_x bc.local_y bc.local_z bc.block, acc.2)
      else
        (acc.1, acc.2 ++ [bc]))
    (c0, [])
  ({ w with all_chunks := cs ++ [drained.1],
            pending_block_changes := drained.2 },
   drained.1)

/-- `World::setChunkVisible`: look the chunk up, generate it when absent,
and push it onto the visible set. -/
def setChunkVisible (terrain : Int → Int → Int → Int → (Int → Int → Int → BLOCK_WDATA))
    (w : World) (x y z : Int) : World :=
  match findChunk w.all_chunks x y z with
  | some _ => { w with visible_chunks := w.visible_chunks ++ [(x, y, z)] }
  | none =>
    let wc := generateChunk terrain w x y z
    { wc.1 with visible_chunks := wc.1.visible_chunks ++ [(x, y, z)] }

/-- `World::clear`: destroy every chunk, drop the visible set, and mark
the world not loaded. -/
def clear (w : World) : World :=
  { w with all_chunks := [], visible_chunks := [], loaded := false }

/-- The integers `a, a+1, ..., b`, the iteration space of a C
`for(int v = a; v <= b; ++v)` loop. -/
def intRange (a b : Int) : List Int :=
  (List.range (b - a + 1).toNat).map (fun (k : Nat) => a + (k : Int))

/-- `round(sqrt(n))` of C's `<cmath>` on a non-negative integer argument:
the integer nearest to the real square root (`sqrt(n)` is never exactly
half-way between two integers, since `4*n` is not an odd square). -/
def roundSqrtInt (n : Int) : Int :=
  ((Nat.sqrt (4 * n.toNat) + 1) / 2 : Nat)

/-- `std::max(0, std::min(chunk_y, World::HEIGHT - 1))`. -/
def clampY (H cy : Int) : Int := max 0 (min cy (H - 1))

/-- The shell distances `1, ..., fov` visited by the outer `dist` loop. -/
def distList (fov : Int) : List Int :=
  (List.range fov.toNat).map (fun (k : Nat) => (k : Int) + 1)

/-- The offset cube `[-d, d]^3` visited by the three inner loops, in
iteration order. -/
def cube (d : Int) : List (Int × Int × Int) :=
  (intRange (-d) d).flatMap fun x =>
    (intRange (-d) d).flatMap fun y =>
      (intRange (-d) d).map fun z => (x, y, z)

/-- The body of the `dist` loop of `World::setPosition`: walk the cube
`[-d, d]^3`, skip offsets that leave the vertical range or whose rounded
Euclidean distance is not `d`, and mark the rest visible. -/
def shellStep (terrain : Int → Int → Int → Int → (Int → Int → Int → BLOCK_WDATA))
    (H cx cy cz d : Int) (w : World) : World :=
  (cube d).foldl
    (fun wa o =>
      if cy + o.2.1 < 0 ∨ H ≤ cy + o.2.1 ∨
          roundSqrtInt (o.1 * o.1 + o.2.1 * o.2.1 + o.2.2 * o.2.2) ≠ d then wa
      else setChunkVisible terrain wa (cx + o.1) (cy + o.2.1) (cz + o.2.2))
    w

/-- `World::setPosition`.  The fixed-point inputs have already been
converted to block units by the collaborator arithmetic
`(GLFix(x) / BLOCK_SIZE).floor()`, so the arguments here are the block
coordinates `px, py, pz`.  When the clamped target chunk coordinate equals
the centered one and the world is loaded, nothing happens; otherwise the
visible set is recomputed shell by shell. -/
def setPosition (terrain : Int → Int → Int → Int → (Int → Int → Int → BLOCK_WDATA))
    (H : Int) (w : World) (px py pz : Int) : World :=
  let chunk_x := getChunk px
  let chunk_y := clampY H (getChunk py)
  let chunk_z := getChunk pz
  if w.loaded = true ∧ chunk_x = w.cen_x ∧ chunk_y = w.cen_y ∧ chunk_z = w.cen_z then
    w
  else
    let w1 := { w with visible_chunks := ([] : List (Int × Int × Int)) }
    let w2 := setChunkVisible terrain w1 chunk_x chunk_y chunk_z
    let w3 := (distList w.field_of_view).foldl
      (fun wa d => shellStep terrain H chunk_x chunk_y chunk_z d wa) w2
    { w3 with cen_x := chunk_x, cen_y := chunk_y, cen_z := chunk_z, loaded := true }

/-- A hit position (the `Position` out-parameter of
`World::intersectsRay`). -/
structure Position where
  x : Int
  y : Int
  z : Int
deriving DecidableEq, Repr

/-- `GLFix::maxValue()`, the sentinel initial value of `shortest_dist`.
GLFix is a 16.16 fixed-point number; its raw maximum is `2^31 - 1`. -/
def GLFixMax : Int := 2147483647

/-- The visible chunks, resolved through the registry (in C these are the
`Chunk*` pointers stored in `visible_chunks` directly). -/
def resolveVisible (w : World) : List Chunk :=
  w.visible_chunks.filterMap (fun p => findChunk w.all_chunks p.1 p.2.1 p.2.2)

/-- `World::intersectsRay`.  The per-chunk ray routine is an external
collaborator: `chunkRay c = some (dist, pos, side)` when chunk `c` reports
a hit for the (fixed) ray, `none` otherwise.  A hit no farther than the
current `shortest_dist` overwrites the result, translated into world
coordinates by the chunk origin times the chunk edge length; the function
returns whether the final distance differs from the sentinel, together
with the final result out-parameters. -/
def rayStep (chunkRay : Chunk → Option (Int × Position × Nat))
    (acc : Int × Option (Position × Nat)) (c : Chunk) :
    Int × Option (Position × Nat) :=
  match chunkRay c with
  | none => acc
  | some (new_dist, pos, new_side) =>
    if new_dist > acc.1 then acc
    else (new_dist,
      some (⟨pos.x + c.x * CHUNK_SIZE, pos.y + c.y * CHUNK_SIZE,
             pos.z + c.z * CHUNK_SIZE⟩, new_side))

def intersectsRay (chunkRay : Chunk → Option (Int × Position × Nat))
    (w : World) : Bool × Option (Position × Nat) :=
  let r := (resolveVisible w).foldl (rayStep chunkRay) (GLFixMax, none)
  (decide (r.1 ≠ GLFixMax), r.2)

/-- One cell of the serialized byte stream.  Each constructor is the
payload of one `fread`/`fwrite` call made by world.cpp (a 4-byte integer
field, one `BLOCK_CHANGE` record of the bulk pending-change transfer, or
the body a chunk hands to its own delegated `saveToFile`/`loadFromFile`,
which is opaque to World). -/
inductive FileEntry where
  | word (v : Int)
  | change (c : BLOCK_CHANGE)
  | chunkData (blocks : Int → Int → Int → BLOCK_WDATA)

/-- The on-stream form of one chunk: its coordinate triple followed by
its opaque body. -/
def chunkRecord (c : Chunk) : List FileEntry :=
  [FileEntry.word c.x, FileEntry.word c.y, FileEntry.word c.z,
   FileEntry.chunkData c.blocks]

/-- `World::saveToFile`: seed, pending-change count, the pending-change
records verbatim, the view radius, then for every generated chunk its
coordinate triple followed by its opaque body.  In the list-of-fields
stream model writes cannot fail, so the `false` paths of the C code do
not arise. -/
def saveToFile (w : World) : List FileEntry :=
  FileEntry.word w.seed ::
  FileEntry.word (w.pending_block_changes.length : Int) ::
  (w.pending_block_changes.map FileEntry.change ++
    (FileEntry.word w.field_of_view ::
      w.all_chunks.flatMap chunkRecord))

/-- The bulk `fread(pending_block_changes.data(), sizeof(BLOCK_CHANGE),
block_changes, file)`: read exactly `n` pending-change records, or fail. -/
def readChanges : Nat → List FileEntry → Option (List BLOCK_CHANGE × List FileEntry)
  | 0, s => some ([], s)
  | n + 1, FileEntry.change c :: s =>
    match readChanges n s with
    | none => none
    | some (cs, r) => some (c :: cs, r)
  | _ + 1, _ => none

/-- The `while(!feof(file))` chunk-record loop of `World::loadFromFile`:
as long as entries remain, read a coordinate triple and a chunk body,
appending the chunk to the registry; any failed read aborts with
failure. -/
def readChunks (w : World) (s : List FileEntry) : Bool × World :=
  match s with
  | [] => (true, w)
  | FileEntry.word x :: s1 =>
    match s1 with
    | FileEntry.word y :: s2 =>
      match s2 with
      | FileEntry.word z :: s3 =>
        match s3 with
        | FileEntry.chunkData bs :: s4 =>
          readChunks
            { w with all_chunks := w.all_chunks ++
                [{ x := x, y := y, z := z, blocks := bs, dirty := false }] }
            s4
        | _ => (false, w)
      | _ => (false, w)
    | _ => (false, w)
  | _ :: _ => (false, w)

/-- `World::loadFromFile`: seed, pending-change count, pending-change
records, view radius, then the chunk-record loop.  Any short read returns
`false`, leaving the fields read so far in place. -/
def loadFromFile (w : World) (s : List FileEntry) : Bool × World :=
  match s with
  | FileEntry.word sd :: s1 =>
    let wa := { w with seed := sd }
    match s1 with
    | FileEntry.word cnt :: s2 =>
      match readChanges cnt.toNat s2 with
      | none => (false, wa)
      | some (cs, s3) =>
        let wb := { wa with pending_block_changes := cs }
        match s3 with
        | FileEntry.word fov :: s4 =>
          readChunks { wb with field_of_view := fov } s4
        | _ => (false, wb)
    | _ => (false, wa)
  | _ => (false, w)

/-- A terrain function for concrete instantiations: every block air. -/
def flatTerrain : Int → Int → Int → Int → (Int → Int → Int → BLOCK_WDATA) :=
  fun _ _ _ _ _ _ _ => BLOCK_AIR

/-- A fresh world with an empty registry and empty queue. -/
def emptyWorld : World :=
  { seed := 0, pending_block_changes := [], field_of_view := 2,
    all_chunks := [], visible_chunks := [], loaded := false,
    cen_x := 0, cen_y := 0, cen_z := 0 }

/-- C5: on a coordinate whose chunk is absent from the registry,
`getBlock` returns air exactly when the vertical chunk index equals
`HEIGHT` and stone otherwise, consulting no chunk; on a present chunk it
returns that chunk's block at the local coordinate. -/
theorem getBlock_fallback (H x y z : Int) (w : World) :
    (findChunk w.all_chunks (getChunk x) (getChunk y) (getChunk z) = none →
      ((getChunk y = H → getBlock H w x y z = BLOCK_AIR) ∧
       (getChunk y ≠ H → getBlock H w x y z = BLOCK_STONE))) ∧
    (∀ c, findChunk w.all_chunks (getChunk x) (getChunk y) (getChunk z) = some c →
      getBlock H w x y z = c.getLocalBlock (getLocal x) (getLocal y) (getLocal z)) := by
  constructor
  · intro hnone
    constructor
    · intro hy
      simp only [getBlock, hnone]
      simp [hy]
    · intro hy
      simp only [getBlock, hnone]
      simp [hy]
  · intro c hc
    simp only [getBlock, hc]

theorem getBlock_fallback_witness :
    (findChunk emptyWorld.all_chunks (getChunk 0) (getChunk 16) (getChunk 0) = none ∧
      getChunk (16 : Int) = 2 ∧ getBlock 2 emptyWorld 0 16 0 = BLOCK_AIR) ∧
    (findChunk emptyWorld.all_chunks (getChunk 0) (getChunk 0) (getChunk 0) = none ∧
      getChunk (0 : Int) ≠ 2 ∧ getBlock 2 emptyWorld 0 0 0 = BLOCK_STONE) := by
  refine ⟨⟨rfl, by decide, ?_⟩, ⟨rfl, by decide, ?_⟩⟩
  · exact ((getBlock_fallback 2 0 16 0 emptyWorld).1 rfl).1 (by decide)
  · exact ((getBlock_fallback 2 0 0 0 emptyWorld).1 rfl).2 (by decide)

/-- C10: `clear` empties the registry and the visible set and marks the
world not loaded, while the pending queue, the seed and the view radius
are untouched. -/
theorem clear_resets_generated_state (w : World) :
    (clear w).all_chunks = [] ∧ (clear w).visible_chunks = [] ∧
    (clear w).loaded = false ∧
    (clear w).pending_block_changes = w.pending_block_changes ∧
    (clear w).seed = w.seed ∧ (clear w).field_of_view = w.field_of_view :=
  ⟨rfl, rfl, rfl, rfl, rfl, rfl⟩

/-- C7: when the world is loaded and the position maps (after vertical
clamping) to the currently centered chunk coordinate, `setPosition`
returns the state unchanged — same visible set, same center, same
registry, so in particular no chunk is generated. -/
theorem setPosition_same_chunk
    (terrain : Int → Int → Int → Int → (Int → Int → Int → BLOCK_WDATA))
    (H px py pz : Int) (w : World)
    (hl : w.loaded = true) (hx : getChunk px = w.cen_x)
    (hy : clampY H (getChunk py) = w.cen_y) (hz : getChunk pz = w.cen_z) :
    setPosition terrain H w px py pz = w := by
  unfold setPosition
  simp [hl, hx, hy, hz]

/-- A loaded world centered at the origin chunk, for instantiations. -/
def loadedWorld : World := { emptyWorld with loaded := true }

theorem setPosition_same_chunk_witness :
    loadedWorld.loaded = true ∧ getChunk (3 : Int) = loadedWorld.cen_x ∧
    clampY 1 (getChunk 4) = loadedWorld.cen_y ∧ getChunk (5 : Int) = loadedWorld.cen_z ∧
    setPosition flatTerrain 1 loadedWorld 3 4 5 = loadedWorld := by
  refine ⟨rfl, by decide, by decide, by decide, ?_⟩
  exact setPosition_same_chunk flatTerrain 1 3 4 5 loadedWorld rfl (by decide)
    (by decide) (by decide)

/-- The pending-change record appended for world coordinate `(x,y,z)` and
block value `b`. -/
def pendingRecord (x y z : Int) (b : BLOCK_WDATA) : BLOCK_CHANGE :=
  ⟨getChunk x, getChunk y, getChunk z, getLocal x, getLocal y, getLocal z, b⟩

/-- Does a pending change target chunk `(X, Y, Z)`? -/
def matchesChunk (X Y Z : Int) (bc : BLOCK_CHANGE) : Bool :=
  decide (bc.chunk_x = X ∧ bc.chunk_y = Y ∧ bc.chunk_z = Z)

/-- The pending-change drain fold of `generateChunk`, split into the
matching entries (applied in order) and the non-matching ones (kept in
order). -/
lemma drain_fold_split (X Y Z : Int) (l : List BLOCK_CHANGE)
    (c : Chunk) (kept : List BLOCK_CHANGE) :
    l.foldl
      (fun (acc : Chunk × List BLOCK_CHANGE) bc =>
        if bc.chunk_x = X ∧ bc.chunk_y = Y ∧ bc.chunk_z = Z then
          (acc.1.setLocalBlock bc.local_x bc.local_y bc.local_z bc.block, acc.2)
        else
          (acc.1, acc.2 ++ [bc]))
      (c, kept) =
    ((l.filter (matchesChunk X Y Z)).foldl
        (fun cc bc => cc.setLocalBlock bc.local_x bc.local_y bc.local_z bc.block) c,
      kept ++ l.filter (fun bc => !matchesChunk X Y Z bc)) := by
  induction l generalizing c kept with
  | nil => simp
  | cons bc rest ih =>
    by_cases h : bc.chunk_x = X ∧ bc.chunk_y = Y ∧ bc.chunk_z = Z
    · have hb : matchesChunk X Y Z bc = true := decide_eq_true h
      rw [List.foldl_cons, if_pos h, ih]
      simp [List.filter_cons, hb]
    · have hb : matchesChunk X Y Z bc = false := decide_eq_false h
      rw [List.foldl_cons, if_neg h, ih]
      simp [List.filter_cons, hb]

/-- C6: `setBlock`/`changeBlock` on an absent chunk appends one
pending-change record; when `generateChunk` later creates a chunk, every
queued entry targeting it is applied to the new chunk at its recorded
local coordinate and removed in one pass, while entries targeting other
chunks stay queued unchanged and in relative order. -/
theorem deferred_edit_drain
    (terrain : Int → Int → Int → Int → (Int → Int → Int → BLOCK_WDATA))
    (w : World) (x y z X Y Z : Int) (b : BLOCK_WDATA)
    (habsent : findChunk w.all_chunks (getChunk x) (getChunk y) (getChunk z) = none) :
    (setBlock w x y z b).pending_block_changes =
        w.pending_block_changes ++ [pendingRecord x y z b] ∧
    (changeBlock w x y z b).pending_block_changes =
        w.pending_block_changes ++ [pendingRecord x y z b] ∧
    (generateChunk terrain w X Y Z).1.pending_block_changes =
        w.pending_block_changes.filter (fun bc => !matchesChunk X Y Z bc) ∧
    (generateChunk terrain w X Y Z).2 =
        (w.pending_block_changes.filter (matchesChunk X Y Z)).foldl
          (fun cc bc => cc.setLocalBlock bc.local_x bc.local_y bc.local_z bc.block)
          { x := X, y := Y, z := Z, blocks := terrain w.seed X Y Z, dirty := false } := by
  refine ⟨?_, ?_, ?_, ?_⟩
  · simp [setBlock, habsent, pendingRecord]
  · simp [changeBlock, habsent, pendingRecord]
  · simp [generateChunk, drain_fold_split]
  · simp [generateChunk, drain_fold_split]

theorem deferred_edit_drain_witness :
    findChunk emptyWorld.all_chunks (getChunk 3) (getChunk 4) (getChunk 5) = none ∧
    (setBlock emptyWorld 3 4 5 7).pending_block_changes =
      emptyWorld.pending_block_changes ++ [pendingRecord 3 4 5 7] ∧
    (generateChunk flatTerrain emptyWorld 0 0 0).1.pending_block_changes =
      emptyWorld.pending_block_changes.filter (fun bc => !matchesChunk 0 0 0 bc) := by
  refine ⟨rfl, ?_, ?_⟩
  · exact (deferred_edit_drain flatTerrain emptyWorld 3 4 5 0 0 0 7 rfl).1
  · exact (deferred_edit_drain flatTerrain emptyWorld 3 4 5 0 0 0 7 rfl).2.2.1

/-- Reading exactly the serialized pending-change records succeeds and
leaves the rest of the stream. -/
lemma readChanges_exact (cs : List BLOCK_CHANGE) (rest : List FileEntry) :
    readChanges cs.length (cs.map FileEntry.change ++ rest) = some (cs, rest) := by
  induction cs with
  | nil => rfl
  | cons c cs ih => simp [readChanges, ih]

/-- Reading more pending-change records than the stream holds fails. -/
lemma readChanges_short (cs : List BLOCK_CHANGE) (n : Nat) (h : cs.length < n) :
    readChanges n (cs.map FileEntry.change) = none := by
  induction cs generalizing n with
  | nil =>
    match n, h with
    | n + 1, _ => rfl
  | cons c cs ih =>
    match n, h with
    | n + 1, h => simp [readChanges, ih n (by simpa using h)]

/-- The projection of a chunk compared by the round-trip property:
coordinates and block content. -/
def chunkData (c : Chunk) : Int × Int × Int × (Int → Int → Int → BLOCK_WDATA) :=
  (c.x, c.y, c.z, c.blocks)

/-- Reload a chunk from its record: same coordinates and blocks, default
dirty flag. -/
def reloadChunk (c : Chunk) : Chunk :=
  { x := c.x, y := c.y, z := c.z, blocks := c.blocks, dirty := false }

/-- The chunk-record loop consumes a well-formed sequence of chunk records
completely, appending each chunk to the registry in order. -/
lemma readChunks_records (cs : List Chunk) (w : World) :
    readChunks w (cs.flatMap chunkRecord) =
      (true, { w with all_chunks := w.all_chunks ++ cs.map reloadChunk }) := by
  induction cs generalizing w with
  | nil => simp [readChunks]
  | cons c cs ih =>
    simp only [List.flatMap_cons, chunkRecord, List.cons_append, List.nil_append]
    have hstep : ∀ s, readChunks w (FileEntry.word c.x :: FileEntry.word c.y :: FileEntry.word c.z :: FileEntry.chunkData c.blocks :: s) = readChunks { w with all_chunks := w.all_chunks ++ [reloadChunk c] } s := fun s => rfl
    rw [hstep, ih]
    simp

/-- C1: saving a world and loading the stream into a fresh world succeeds
and reproduces the seed, the pending-change records in order, the view
radius, and the same number of chunks with matching coordinates and block
content. -/
theorem save_load_roundtrip (w w0 : World) (h0 : w0.all_chunks = []) :
    (loadFromFile w0 (saveToFile w)).1 = true ∧
    (loadFromFile w0 (saveToFile w)).2.seed = w.seed ∧
    (loadFromFile w0 (saveToFile w)).2.pending_block_changes = w.pending_block_changes ∧
    (loadFromFile w0 (saveToFile w)).2.field_of_view = w.field_of_view ∧
    (loadFromFile w0 (saveToFile w)).2.all_chunks.length = w.all_chunks.length ∧
    (loadFromFile w0 (saveToFile w)).2.all_chunks.map chunkData =
      w.all_chunks.map chunkData := by
  have hload : loadFromFile w0 (saveToFile w) =
      readChunks { w0 with seed := w.seed, pending_block_changes := w.pending_block_changes, field_of_view := w.field_of_view } (w.all_chunks.flatMap chunkRecord) := by
    simp only [saveToFile, loadFromFile, Int.toNat_natCast, readChanges_exact]
  rw [hload, readChunks_records]
  simp [h0, chunkData, List.map_map, Function.comp, reloadChunk]

/-- A world holding one generated chunk, one pending edit and a custom
seed and radius, for instantiations. -/
def sampleWorld : World :=
  { seed := 42, pending_block_changes := [⟨9, 9, 9, 1, 1, 1, 3⟩],
    field_of_view := 5,
    all_chunks := [{ x := 1, y := 2, z := 3, blocks := fun _ _ _ => 9,
                     dirty := false }],
    visible_chunks := [], loaded := false, cen_x := 0, cen_y := 0, cen_z := 0 }

theorem save_load_roundtrip_witness :
    emptyWorld.all_chunks = [] ∧
    (loadFromFile emptyWorld (saveToFile sampleWorld)).1 = true ∧
    (loadFromFile emptyWorld (saveToFile sampleWorld)).2.seed = sampleWorld.seed ∧
    (loadFromFile emptyWorld (saveToFile sampleWorld)).2.pending_block_changes =
      sampleWorld.pending_block_changes ∧
    (loadFromFile emptyWorld (saveToFile sampleWorld)).2.field_of_view =
      sampleWorld.field_of_view ∧
    (loadFromFile emptyWorld (saveToFile sampleWorld)).2.all_chunks.length =
      sampleWorld.all_chunks.length := by
  have h := save_load_roundtrip sampleWorld emptyWorld rfl
  exact ⟨rfl, h.1, h.2.1, h.2.2.1, h.2.2.2.1, h.2.2.2.2.1⟩

/-- Every chunk contributes exactly four stream cells. -/
lemma length_chunkRecords (cs : List Chunk) :
    (cs.flatMap chunkRecord).length = 4 * cs.length := by
  induction cs with
  | nil => rfl
  | cons c cs ih =>
    simp only [List.flatMap_cons, List.length_append, ih, chunkRecord]
    simp only [List.length_cons, List.length_nil]
    ring

/-- The total length of a saved stream. -/
lemma saveToFile_length (w : World) :
    (saveToFile w).length =
      3 + w.pending_block_changes.length + 4 * w.all_chunks.length := by
  simp only [saveToFile, List.length_cons, List.length_append, List.length_map,
    length_chunkRecords]
  omega

/-- A chunk-record stream cut off strictly inside a record makes the
chunk-record loop fail. -/
lemma readChunks_partial (cs : List Chunk) (w : World) (j : Nat)
    (hmod : j % 4 ≠ 0) (hlt : j < 4 * cs.length) :
    (readChunks w ((cs.flatMap chunkRecord).take j)).1 = false := by
  induction cs generalizing w j with
  | nil => simp at hlt
  | cons c cs ih =>
    simp only [List.flatMap_cons]
    by_cases hj : j < 4
    · have hj4 : j = 1 ∨ j = 2 ∨ j = 3 := by omega
      rcases hj4 with rfl | rfl | rfl <;> rfl
    · have hsplit : (chunkRecord c ++ cs.flatMap chunkRecord).take j =
          chunkRecord c ++ (cs.flatMap chunkRecord).take (j - 4) := by
        have h4 : (chunkRecord c).length ≤ j := by
          simp only [chunkRecord, List.length_cons, List.length_nil]
          omega
        rw [List.take_append_eq_append_take, List.take_of_length_le h4]
        rfl
      rw [hsplit]
      have hstep : ∀ s, readChunks w (chunkRecord c ++ s) = readChunks { w with all_chunks := w.all_chunks ++ [{ x := c.x, y := c.y, z := c.z, blocks := c.blocks, dirty := false }] } s := fun s => rfl
      rw [hstep]
      simp only [List.length_cons] at hlt
      exact ih _ _ (by omega) (by omega)

/-- C8: a save stream cut off before a requested field is complete — in
the header (seed, count, pending records, radius) or strictly inside a
chunk record (coordinate triple or body missing) — makes `loadFromFile`
return `false`.  (A cut exactly between chunk records is indistinguishable
from a shorter valid file and is not covered by the claim.) -/
theorem truncated_load_fails (w w0 : World) (k : Nat)
    (hk : k < (saveToFile w).length)
    (hcut : k < 3 + w.pending_block_changes.length ∨
      (k - (3 + w.pending_block_changes.length)) % 4 ≠ 0) :
    (loadFromFile w0 ((saveToFile w).take k)).1 = false := by
  match k with
  | 0 => rfl
  | 1 => rfl
  | k + 2 =>
    rw [show (saveToFile w).take (k + 2) =
        FileEntry.word w.seed ::
        FileEntry.word (w.pending_block_changes.length : Int) ::
        ((w.pending_block_changes.map FileEntry.change ++
          (FileEntry.word w.field_of_view ::
            w.all_chunks.flatMap chunkRecord)).take k) from by
      simp [saveToFile, List.take_succ_cons]]
    rcases lt_trichotomy k w.pending_block_changes.length with hkn | hkn | hkn
    · have htake : (w.pending_block_changes.map FileEntry.change ++
          (FileEntry.word w.field_of_view ::
            w.all_chunks.flatMap chunkRecord)).take k =
          (w.pending_block_changes.take k).map FileEntry.change := by
        rw [List.take_append_eq_append_take]
        have h1 : k - (w.pending_block_changes.map FileEntry.change).length = 0 := by
          simp
          omega
        rw [h1, List.map_take]
        simp
      rw [htake]
      simp only [loadFromFile, Int.toNat_natCast]
      rw [readChanges_short _ _ (by simp; omega)]
    · have htake : (w.pending_block_changes.map FileEntry.change ++
          (FileEntry.word w.field_of_view ::
            w.all_chunks.flatMap chunkRecord)).take k =
          w.pending_block_changes.map FileEntry.change ++ [] := by
        rw [List.take_append_eq_append_take]
        congr 1
        · rw [List.take_of_length_le]
          simp
          omega
        · have h1 : k - (w.pending_block_changes.map FileEntry.change).length = 0 := by
            simp
            omega
          rw [h1]
          simp
      rw [htake]
      simp only [loadFromFile, Int.toNat_natCast, readChanges_exact]
    · have hk3 : 3 + w.pending_block_changes.length ≤ k + 2 := by omega
      have hmod : (k - (w.pending_block_changes.length + 1)) % 4 ≠ 0 := by
        rcases hcut with h | h
        · omega
        · have : k + 2 - (3 + w.pending_block_changes.length) =
              k - (w.pending_block_changes.length + 1) := by omega
          omega
      have htake : (w.pending_block_changes.map FileEntry.change ++
          (FileEntry.word w.field_of_view ::
            w.all_chunks.flatMap chunkRecord)).take k =
          w.pending_block_changes.map FileEntry.change ++
            (FileEntry.word w.field_of_view ::
              ((w.all_chunks.flatMap chunkRecord).take
                (k - (w.pending_block_changes.length + 1)))) := by
        rw [List.take_append_eq_append_take]
        congr 1
        · rw [List.take_of_length_le]
          simp
          omega
        · have h1 : k - (w.pending_block_changes.map FileEntry.change).length =
              (k - w.pending_block_changes.length) := by simp
          rw [h1]
          have h2 : k - w.pending_block_changes.length =
              (k - w.pending_block_changes.length - 1) + 1 := by omega
          rw [h2, List.take_succ_cons]
          rfl
      rw [htake]
      simp only [loadFromFile, Int.toNat_natCast, readChanges_exact]
      apply readChunks_partial
      · exact hmod
      · have hlen := saveToFile_length w
        omega

theorem truncated_load_fails_witness :
    5 < (saveToFile sampleWorld).length ∧
    (5 < 3 + sampleWorld.pending_block_changes.length ∨
      (5 - (3 + sampleWorld.pending_block_changes.length)) % 4 ≠ 0) ∧
    (loadFromFile emptyWorld ((saveToFile sampleWorld).take 5)).1 = false := by
  refine ⟨by decide, by decide, ?_⟩
  exact truncated_load_fails sampleWorld emptyWorld 5 (by decide) (by decide)

/-- If no chunk of `l` reports a hit, the ray fold leaves its
accumulator untouched. -/
lemma rayFold_no_hit (chunkRay : Chunk → Option (Int × Position × Nat))
    (l : List Chunk) (acc : Int × Option (Position × Nat))
    (h : ∀ c ∈ l, chunkRay c = none) :
    l.foldl (rayStep chunkRay) acc = acc := by
  induction l generalizing acc with
  | nil => rfl
  | cons c rest ih =>
    rw [List.foldl_cons]
    rw [show rayStep chunkRay acc c = acc from by
      simp [rayStep, h c (List.mem_cons_self c rest)]]
    exact ih acc (fun c' hc' => h c' (List.mem_cons_of_mem c hc'))

/-- Every hit of `l` being strictly farther than the accumulated
distance, the ray fold keeps the accumulated result. -/
lemma rayFold_far (chunkRay : Chunk → Option (Int × Position × Nat))
    (l : List Chunk) (d : Int) (r : Option (Position × Nat))
    (h : ∀ c ∈ l, ∀ d' p' s', chunkRay c = some (d', p', s') → d < d') :
    l.foldl (rayStep chunkRay) (d, r) = (d, r) := by
  induction l with
  | nil => rfl
  | cons c rest ih =>
    rw [List.foldl_cons]
    have hstep : rayStep chunkRay (d, r) c = (d, r) := by
      unfold rayStep
      match hc : chunkRay c with
      | none => rfl
      | some (d', p', s') =>
        have := h c (List.mem_cons_self c rest) d' p' s' hc
        simp [this]
    rw [hstep]
    exact ih (fun c' hc' => h c' (List.mem_cons_of_mem c hc'))

/-- The accumulated shortest distance never drops below a lower bound
shared by the accumulator and every hit. -/
lemma rayFold_lower_bound (chunkRay : Chunk → Option (Int × Position × Nat))
    (l : List Chunk) (d : Int) (acc : Int × Option (Position × Nat))
    (hacc : d ≤ acc.1)
    (h : ∀ c ∈ l, ∀ d' p' s', chunkRay c = some (d', p', s') → d ≤ d') :
    d ≤ (l.foldl (rayStep chunkRay) acc).1 := by
  induction l generalizing acc with
  | nil => exact hacc
  | cons c rest ih =>
    rw [List.foldl_cons]
    refine ih (rayStep chunkRay acc c) ?_ (fun c' hc' => h c' (List.mem_cons_of_mem c hc'))
    unfold rayStep
    match hc : chunkRay c with
    | none => exact hacc
    | some (d', p', s') =>
      by_cases hgt : d' > acc.1
      · simpa [hgt] using hacc
      · simpa [hgt] using h c (List.mem_cons_self c rest) d' p' s' hc

/-- The accumulated shortest distance never increases. -/
lemma rayFold_mono (chunkRay : Chunk → Option (Int × Position × Nat))
    (l : List Chunk) (acc : Int × Option (Position × Nat)) :
    (l.foldl (rayStep chunkRay) acc).1 ≤ acc.1 := by
  induction l generalizing acc with
  | nil => exact le_refl _
  | cons c rest ih =>
    rw [List.foldl_cons]
    refine le_trans (ih (rayStep chunkRay acc c)) ?_
    unfold rayStep
    match hc : chunkRay c with
    | none => exact le_refl _
    | some (d', p', s') =>
      by_cases hgt : d' > acc.1
      · simp [hgt]
      · simp only [hgt, if_false]
        omega

/-- Any reported hit distance bounds the final accumulated distance. -/
lemma rayFold_upper_bound (chunkRay : Chunk → Option (Int × Position × Nat))
    (l : List Chunk) (c : Chunk) (hc : c ∈ l) (d' : Int) (p' : Position) (s' : Nat)
    (hhit : chunkRay c = some (d', p', s')) (acc : Int × Option (Position × Nat)) :
    (l.foldl (rayStep chunkRay) acc).1 ≤ d' := by
  induction l generalizing acc with
  | nil => cases hc
  | cons c0 rest ih =>
    rw [List.foldl_cons]
    rcases List.mem_cons.mp hc with rfl | hmem
    · refine le_trans (rayFold_mono chunkRay rest _) ?_
      unfold rayStep
      rw [hhit]
      by_cases hgt : d' > acc.1
      · simp [hgt]
        omega
      · simp [hgt]
    · exact ih hmem _

/-- A reported hit no farther than the accumulated distance overwrites
the accumulated result with the translated position. -/
lemma rayStep_hit (chunkRay : Chunk → Option (Int × Position × Nat))
    (acc : Int × Option (Position × Nat)) (c : Chunk)
    (d : Int) (p : Position) (sd : Nat)
    (h : chunkRay c = some (d, p, sd)) (hle : ¬ d > acc.1) :
    rayStep chunkRay acc c =
      (d, some (⟨p.x + c.x * CHUNK_SIZE, p.y + c.y * CHUNK_SIZE,
                 p.z + c.z * CHUNK_SIZE⟩, sd)) := by
  unfold rayStep
  rw [h]
  dsimp only
  rw [if_neg hle]

/-- The ray fold selects the hit of the entry at index `i` when that hit
is globally minimal and every later hit is strictly farther. -/
lemma rayFold_select (chunkRay : Chunk → Option (Int × Position × Nat))
    (l : List Chunk) (i : Nat) (hi : i < l.length)
    (d : Int) (p : Position) (sd : Nat)
    (hhit : chunkRay (l.get ⟨i, hi⟩) = some (d, p, sd))
    (hmin : ∀ c ∈ l, ∀ d' p' s', chunkRay c = some (d', p', s') → d ≤ d')
    (hlater : ∀ c ∈ l.drop (i + 1), ∀ d' p' s',
      chunkRay c = some (d', p', s') → d < d')
    (hmax : d < GLFixMax) :
    l.foldl (rayStep chunkRay) (GLFixMax, none) =
      (d, some (⟨p.x + (l.get ⟨i, hi⟩).x * CHUNK_SIZE,
                 p.y + (l.get ⟨i, hi⟩).y * CHUNK_SIZE,
                 p.z + (l.get ⟨i, hi⟩).z * CHUNK_SIZE⟩, sd)) := by
  have hsplit : l = l.take i ++ (l.get ⟨i, hi⟩ :: l.drop (i + 1)) := by
    have h1 := List.take_append_drop i l
    rw [List.drop_eq_getElem_cons hi] at h1
    exact h1.symm
  conv_lhs => rw [hsplit]
  rw [List.foldl_append, List.foldl_cons]
  have hlb : d ≤ ((l.take i).foldl (rayStep chunkRay) (GLFixMax, none)).1 := by
    refine rayFold_lower_bound chunkRay _ d _ (le_of_lt hmax) ?_
    intro c hc d' p' s' h
    exact hmin c (List.take_subset _ _ hc) d' p' s' h
  rw [rayStep_hit chunkRay _ _ d p sd hhit (by omega),
    rayFold_far chunkRay _ _ _ hlater]

/-- C3 (amended): `intersectsRay` returns the hit with the globally
smallest distance among the visible chunks, resolving equal distances in
favor of the last-seen chunk in visible-set order (not the first-seen, as
the original claim stated); the returned position is the chunk-local hit
position plus the chunk coordinate times the chunk edge length.  The
companion lemma covers the complete false-iff-no-hit direction. -/
theorem intersectsRay_nearest_last
    (chunkRay : Chunk → Option (Int × Position × Nat)) (w : World)
    (i : Nat) (hi : i < (resolveVisible w).length)
    (d : Int) (p : Position) (sd : Nat)
    (hhit : chunkRay ((resolveVisible w).get ⟨i, hi⟩) = some (d, p, sd))
    (hmin : ∀ c ∈ resolveVisible w, ∀ d' p' s',
      chunkRay c = some (d', p', s') → d ≤ d')
    (hlater : ∀ c ∈ (resolveVisible w).drop (i + 1), ∀ d' p' s',
      chunkRay c = some (d', p', s') → d < d')
    (hmax : d < GLFixMax) :
    intersectsRay chunkRay w =
      (true, some (⟨p.x + ((resolveVisible w).get ⟨i, hi⟩).x * CHUNK_SIZE,
                    p.y + ((resolveVisible w).get ⟨i, hi⟩).y * CHUNK_SIZE,
                    p.z + ((resolveVisible w).get ⟨i, hi⟩).z * CHUNK_SIZE⟩, sd)) := by
  have hfold := rayFold_select chunkRay (resolveVisible w) i hi d p sd hhit hmin hlater hmax
  unfold intersectsRay
  rw [hfold]
  have hne : d ≠ GLFixMax := by omega
  simp [hne]

/-- C3 (amended, no-hit half): with every reported distance below the
sentinel, `intersectsRay` returns false exactly when no visible chunk
reports a hit.  Stated separately from the nearest-hit half because the
selected index does not exist in the no-hit case. -/
lemma intersectsRay_false_iff
    (chunkRay : Chunk → Option (Int × Position × Nat)) (w : World)
    (hall : ∀ c ∈ resolveVisible w, ∀ d' p' s',
      chunkRay c = some (d', p', s') → d' < GLFixMax) :
    (intersectsRay chunkRay w).1 = false ↔
      ∀ c ∈ resolveVisible w, chunkRay c = none := by
  constructor
  · intro hfalse
    intro c hc
    match hray : chunkRay c with
    | none => rfl
    | some (d', p', s') =>
      exfalso
      have hub := rayFold_upper_bound chunkRay (resolveVisible w) c hc d' p' s' hray
        (GLFixMax, none)
      have hlt : ((resolveVisible w).foldl (rayStep chunkRay) (GLFixMax, none)).1 < GLFixMax :=
        lt_of_le_of_lt hub (hall c hc d' p' s' hray)
      have : (intersectsRay chunkRay w).1 = true := by
        unfold intersectsRay
        simp only [decide_eq_true_eq]
        omega
      rw [this] at hfalse
      cases hfalse
  · intro hnone
    unfold intersectsRay
    rw [rayFold_no_hit chunkRay _ _ hnone]
    simp

/-- C3 (amended): among the visible chunks, `intersectsRay` returns the
hit with the globally smallest distance, resolving ties between equal
distances in favor of the LAST-seen chunk in visible-set order (the
original claim said first-seen; the code's `new_dist > shortest_dist`
skip-test lets an equal distance overwrite); the returned position is the
chunk-local hit position plus the chunk coordinate times the chunk edge
length; and, all reported distances lying below the sentinel, it returns
false exactly when no visible chunk reports a hit. -/
theorem intersectsRay_nearest_spec
    (chunkRay : Chunk → Option (Int × Position × Nat)) (w : World) :
    (∀ (i : Nat) (hi : i < (resolveVisible w).length) (d : Int) (p : Position) (sd : Nat),
      chunkRay ((resolveVisible w).get ⟨i, hi⟩) = some (d, p, sd) →
      (∀ c ∈ resolveVisible w, ∀ d' p' s', chunkRay c = some (d', p', s') → d ≤ d') →
      (∀ c ∈ (resolveVisible w).drop (i + 1), ∀ d' p' s',
        chunkRay c = some (d', p', s') → d < d') →
      d < GLFixMax →
      intersectsRay chunkRay w =
        (true, some (⟨p.x + ((resolveVisible w).get ⟨i, hi⟩).x * CHUNK_SIZE,
                      p.y + ((resolveVisible w).get ⟨i, hi⟩).y * CHUNK_SIZE,
                      p.z + ((resolveVisible w).get ⟨i, hi⟩).z * CHUNK_SIZE⟩, sd))) ∧
    ((∀ c ∈ resolveVisible w, ∀ d' p' s', chunkRay c = some (d', p', s') → d' < GLFixMax) →
      ((intersectsRay chunkRay w).1 = false ↔
        ∀ c ∈ resolveVisible w, chunkRay c = none)) := by
  constructor
  · intro i hi d p sd hhit hmin hlater hmax
    exact intersectsRay_nearest_last chunkRay w i hi d p sd hhit hmin hlater hmax
  · intro hall
    exact intersectsRay_false_iff chunkRay w hall

/-- A chunk at the origin with a uniform block content. -/
def chunkA : Chunk := { x := 0, y := 0, z := 0, blocks := fun _ _ _ => 2, dirty := false }

/-- Its neighbor at chunk coordinate (1, 0, 0). -/
def chunkB : Chunk := { x := 1, y := 0, z := 0, blocks := fun _ _ _ => 2, dirty := false }

/-- A world in which both chunks are registered and visible, A first. -/
def tieWorld : World :=
  { seed := 0, pending_block_changes := [], field_of_view := 1,
    all_chunks := [chunkA, chunkB],
    visible_chunks := [(0, 0, 0), (1, 0, 0)], loaded := true,
    cen_x := 0, cen_y := 0, cen_z := 0 }

/-- A ray report giving both chunks a hit at the same distance and the
same chunk-local position. -/
def tieRay : Chunk → Option (Int × Position × Nat) :=
  fun _ => some (10, ⟨1, 2, 3⟩, 0)

/-- A ray report giving every chunk a hit at exactly the sentinel
distance `GLFix::maxValue()`. -/
def sentinelRay : Chunk → Option (Int × Position × Nat) :=
  fun _ => some (GLFixMax, ⟨1, 2, 3⟩, 0)

/-- C3, counterexample to the claim as stated, in two parts.  Tie part:
with two visible chunks reporting hits at the SAME distance,
`intersectsRay` returns the position translated by the SECOND chunk's
origin, not the first-seen chunk's, so ties are not resolved in favor of
the first-seen chunk.  Sentinel part: with a visible chunk reporting a
hit at distance exactly `GLFix::maxValue()`, the final
`shortest_dist != GLFix::maxValue()` test makes `intersectsRay` return
FALSE even though a visible chunk reported a hit, so the claim's
unqualified "returns false if and only if no visible chunk reports a
hit" is also refuted. -/
theorem intersectsRay_tie_counterexample :
    (tieRay chunkA = some (10, ⟨1, 2, 3⟩, 0) ∧
     tieRay chunkB = some (10, ⟨1, 2, 3⟩, 0) ∧
     resolveVisible tieWorld = [chunkA, chunkB] ∧
     intersectsRay tieRay tieWorld =
       (true, some (⟨1 + chunkB.x * CHUNK_SIZE, 2 + chunkB.y * CHUNK_SIZE,
                     3 + chunkB.z * CHUNK_SIZE⟩, 0)) ∧
     (⟨1 + chunkB.x * CHUNK_SIZE, 2 + chunkB.y * CHUNK_SIZE,
       3 + chunkB.z * CHUNK_SIZE⟩ : Position) ≠
       ⟨1 + chunkA.x * CHUNK_SIZE, 2 + chunkA.y * CHUNK_SIZE,
        3 + chunkA.z * CHUNK_SIZE⟩) ∧
    (sentinelRay chunkA = some (GLFixMax, ⟨1, 2, 3⟩, 0) ∧
     chunkA ∈ resolveVisible tieWorld ∧
     (intersectsRay sentinelRay tieWorld).1 = false) := by
  refine ⟨⟨rfl, rfl, rfl, rfl, by decide⟩, rfl, ?_, rfl⟩
  rw [show resolveVisible tieWorld = [chunkA, chunkB] from rfl]
  exact List.mem_cons_self _ _

/-- A world whose sole visible chunk is the sample chunk at (1, 2, 3). -/
def rayWorld : World := { sampleWorld with visible_chunks := [(1, 2, 3)] }

/-- A ray report hitting only chunks with x-coordinate 1. -/
def oneRay : Chunk → Option (Int × Position × Nat) :=
  fun c => if c.x = 1 then some (10, ⟨1, 2, 3⟩, 0) else none

theorem intersectsRay_nearest_spec_witness :
    intersectsRay oneRay rayWorld =
      (true, some (⟨1 + 1 * CHUNK_SIZE, 2 + 2 * CHUNK_SIZE, 3 + 3 * CHUNK_SIZE⟩, 0)) := by
  have hi : 0 < (resolveVisible rayWorld).length := by decide
  have hmin : ∀ c ∈ resolveVisible rayWorld, ∀ d' p' s',
      oneRay c = some (d', p', s') → (10 : Int) ≤ d' := by
    intro c hc d' p' s' hsome
    unfold oneRay at hsome
    by_cases hcx : c.x = 1
    · rw [if_pos hcx] at hsome
      simp only [Option.some.injEq, Prod.mk.injEq] at hsome
      omega
    · rw [if_neg hcx] at hsome
      cases hsome
  have hlater : ∀ c ∈ (resolveVisible rayWorld).drop (0 + 1), ∀ d' p' s',
      oneRay c = some (d', p', s') → (10 : Int) < d' := by
    intro c hc
    rw [show (resolveVisible rayWorld).drop (0 + 1) = [] from rfl] at hc
    cases hc
  exact (intersectsRay_nearest_spec oneRay rayWorld).1 0 hi 10 ⟨1, 2, 3⟩ 0 rfl
    hmin hlater (by decide)

/-- The coordinates of the chunks of a registry, in order. -/
def coordsOf (cs : List Chunk) : List (Int × Int × Int) :=
  cs.map (fun c => (c.x, c.y, c.z))

@[simp] lemma coordsOf_nil : coordsOf [] = [] := rfl

@[simp] lemma coordsOf_cons (c : Chunk) (cs : List Chunk) :
    coordsOf (c :: cs) = (c.x, c.y, c.z) :: coordsOf cs := rfl

@[simp] lemma coordsOf_append (cs ds : List Chunk) :
    coordsOf (cs ++ ds) = coordsOf cs ++ coordsOf ds := by
  simp [coordsOf]

/-- Every visible-set entry designates a chunk that the registry owns. -/
def visOk (w : World) : Prop :=
  ∀ p ∈ w.visible_chunks, p ∈ coordsOf w.all_chunks

lemma coordsOf_updateFirst (cs : List Chunk) (x y z : Int) (f : Chunk → Chunk)
    (hf : ∀ c, (f c).x = c.x ∧ (f c).y = c.y ∧ (f c).z = c.z) :
    coordsOf (updateFirstChunk cs x y z f) = coordsOf cs := by
  induction cs with
  | nil => rfl
  | cons c rest ih =>
    unfold updateFirstChunk
    by_cases h : c.x = x ∧ c.y = y ∧ c.z = z
    · simp [h, (hf c).1, (hf c).2.1, (hf c).2.2]
    · simp [h, ih]

lemma coordsOf_markDirtyAt (cs : List Chunk) (x y z : Int) :
    coordsOf (markDirtyAt cs x y z) = coordsOf cs := by
  unfold markDirtyAt
  match findChunk cs x y z with
  | none => rfl
  | some c => exact coordsOf_updateFirst cs x y z _ (fun c' => ⟨rfl, rfl, rfl⟩)

lemma fold_setLocal_coords (l : List BLOCK_CHANGE) (c : Chunk) :
    ((l.foldl (fun cc bc => cc.setLocalBlock bc.local_x bc.local_y bc.local_z bc.block) c).x = c.x) ∧
    ((l.foldl (fun cc bc => cc.setLocalBlock bc.local_x bc.local_y bc.local_z bc.block) c).y = c.y) ∧
    ((l.foldl (fun cc bc => cc.setLocalBlock bc.local_x bc.local_y bc.local_z bc.block) c).z = c.z) := by
  induction l generalizing c with
  | nil => exact ⟨rfl, rfl, rfl⟩
  | cons bc rest ih =>
    rw [List.foldl_cons]
    exact ih _

lemma generateChunk_state
    (terrain : Int → Int → Int → Int → (Int → Int → Int → BLOCK_WDATA))
    (w : World) (x y z : Int) :
    (generateChunk terrain w x y z).1.visible_chunks = w.visible_chunks ∧
    coordsOf (generateChunk terrain w x y z).1.all_chunks =
      coordsOf w.all_chunks ++ [(x, y, z)] := by
  unfold generateChunk
  refine ⟨rfl, ?_⟩
  dsimp only
  rw [drain_fold_split]
  simp only [coordsOf_append, coordsOf_markDirtyAt]
  have hc := fold_setLocal_coords
    (w.pending_block_changes.filter (matchesChunk x y z))
    { x := x, y := y, z := z, blocks := terrain w.seed x y z, dirty := false }
  simp [hc.1, hc.2.1, hc.2.2]

lemma findChunk_some (cs : List Chunk) (x y z : Int) (c : Chunk)
    (h : findChunk cs x y z = some c) :
    c ∈ cs ∧ c.x = x ∧ c.y = y ∧ c.z = z := by
  unfold findChunk at h
  have hmem := List.mem_of_find?_eq_some h
  have hp := List.find?_some h
  simp only [decide_eq_true_eq] at hp
  exact ⟨hmem, hp⟩

lemma setChunkVisible_state
    (terrain : Int → Int → Int → Int → (Int → Int → Int → BLOCK_WDATA))
    (w : World) (x y z : Int) :
    (setChunkVisible terrain w x y z).visible_chunks = w.visible_chunks ++ [(x, y, z)] ∧
    (x, y, z) ∈ coordsOf (setChunkVisible terrain w x y z).all_chunks ∧
    (∀ p ∈ coordsOf w.all_chunks,
      p ∈ coordsOf (setChunkVisible terrain w x y z).all_chunks) := by
  unfold setChunkVisible
  dsimp only
  match hf : findChunk w.all_chunks x y z with
  | some c =>
    obtain ⟨hmem, hx, hy, hz⟩ := findChunk_some _ _ _ _ _ hf
    refine ⟨rfl, ?_, fun p hp => hp⟩
    have : (c.x, c.y, c.z) ∈ coordsOf w.all_chunks := by
      exact List.mem_map_of_mem _ hmem
    rw [hx, hy, hz] at this
    exact this
  | none =>
    have hs := generateChunk_state terrain w x y z
    refine ⟨by rw [hs.1], ?_, ?_⟩
    · rw [hs.2]
      simp
    · intro p hp
      rw [hs.2]
      simp [hp]

lemma visOk_setChunkVisible
    (terrain : Int → Int → Int → Int → (Int → Int → Int → BLOCK_WDATA))
    (w : World) (x y z : Int) (hw : visOk w) :
    visOk (setChunkVisible terrain w x y z) := by
  obtain ⟨hv, hnew, hmono⟩ := setChunkVisible_state terrain w x y z
  intro p hp
  rw [hv] at hp
  rcases List.mem_append.mp hp with hold | hsingle
  · exact hmono p (hw p hold)
  · rcases List.mem_singleton.mp hsingle with rfl
    exact hnew

lemma visOk_foldl {α : Type} (step : World → α → World)
    (hstep : ∀ w a, visOk w → visOk (step w a)) :
    ∀ (l : List α) (w : World), visOk w → visOk (l.foldl step w) := by
  intro l
  induction l with
  | nil => exact fun w hw => hw
  | cons a rest ih =>
    intro w hw
    rw [List.foldl_cons]
    exact ih _ (hstep w a hw)

lemma visOk_shellStep
    (terrain : Int → Int → Int → Int → (Int → Int → Int → BLOCK_WDATA))
    (H cx cy cz d : Int) (w : World) (hw : visOk w) :
    visOk (shellStep terrain H cx cy cz d w) := by
  unfold shellStep
  refine visOk_foldl _ ?_ _ _ hw
  intro wa o hwa
  by_cases hcond : cy + o.2.1 < 0 ∨ H ≤ cy + o.2.1 ∨
      roundSqrtInt (o.1 * o.1 + o.2.1 * o.2.1 + o.2.2 * o.2.2) ≠ d
  · simpa [hcond] using hwa
  · rw [if_neg hcond]
    exact visOk_setChunkVisible terrain wa _ _ _ hwa

lemma visOk_setPosition
    (terrain : Int → Int → Int → Int → (Int → Int → Int → BLOCK_WDATA))
    (H : Int) (w : World) (px py pz : Int) (hw : visOk w) :
    visOk (setPosition terrain H w px py pz) := by
  unfold setPosition
  dsimp only
  by_cases hsame : w.loaded = true ∧ getChunk px = w.cen_x ∧
      clampY H (getChunk py) = w.cen_y ∧ getChunk pz = w.cen_z
  · rw [if_pos hsame]
    exact hw
  · rw [if_neg hsame]
    have h1 : visOk { w with visible_chunks := ([] : List (Int × Int × Int)) } := by
      intro p hp
      simp at hp
    have h2 := visOk_setChunkVisible terrain _ (getChunk px) (clampY H (getChunk py))
      (getChunk pz) h1
    have h3 := visOk_foldl
      (fun wa d => shellStep terrain H (getChunk px) (clampY H (getChunk py)) (getChunk pz) d wa)
      (fun wa d hwa => visOk_shellStep terrain H _ _ _ d wa hwa)
      (distList w.field_of_view) _ h2
    exact h3

lemma visOk_updateWorld (w : World) (x y z : Int) (f : Chunk → Chunk)
    (hf : ∀ c, (f c).x = c.x ∧ (f c).y = c.y ∧ (f c).z = c.z) (hw : visOk w) :
    visOk { w with all_chunks := updateFirstChunk w.all_chunks x y z f } := by
  intro p hp
  have := hw p hp
  rw [show coordsOf (updateFirstChunk w.all_chunks x y z f) = coordsOf w.all_chunks
    from coordsOf_updateFirst _ _ _ _ _ hf]
  exact this

lemma visOk_setBlock (w : World) (x y z : Int) (b : BLOCK_WDATA) (hw : visOk w) :
    visOk (setBlock w x y z b) := by
  unfold setBlock
  dsimp only
  match findChunk w.all_chunks (getChunk x) (getChunk y) (getChunk z) with
  | some c => exact visOk_updateWorld w _ _ _ _ (fun c' => ⟨rfl, rfl, rfl⟩) hw
  | none => exact hw

lemma visOk_changeBlock (w : World) (x y z : Int) (b : BLOCK_WDATA) (hw : visOk w) :
    visOk (changeBlock w x y z b) := by
  unfold changeBlock
  dsimp only
  match findChunk w.all_chunks (getChunk x) (getChunk y) (getChunk z) with
  | some c => exact visOk_updateWorld w _ _ _ _ (fun c' => ⟨rfl, rfl, rfl⟩) hw
  | none => exact hw

lemma visOk_blockAction
    (action : BLOCK_WDATA → Int → Int → Int → Chunk → Chunk × Bool)
    (w : World) (x y z : Int)
    (hact : ∀ bv lx ly lz c, ((action bv lx ly lz c).1.x = c.x ∧
      (action bv lx ly lz c).1.y = c.y ∧ (action bv lx ly lz c).1.z = c.z))
    (hw : visOk w) :
    visOk (blockAction action w x y z).1 := by
  unfold blockAction
  dsimp only
  match findChunk w.all_chunks (getChunk x) (getChunk y) (getChunk z) with
  | none => exact hw
  | some c => exact visOk_updateWorld w _ _ _ _ (fun c' => hact _ _ _ _ c') hw

lemma visOk_clear (w : World) : visOk (clear w) := by
  intro p hp
  simp [clear] at hp

lemma readChunks_shape : ∀ (s : List FileEntry) (w : World),
    (readChunks w s).2.visible_chunks = w.visible_chunks ∧
    ∀ p ∈ coordsOf w.all_chunks, p ∈ coordsOf (readChunks w s).2.all_chunks
  | [], _ => ⟨rfl, fun _ hp => hp⟩
  | FileEntry.change _ :: _, _ => ⟨rfl, fun _ hp => hp⟩
  | FileEntry.chunkData _ :: _, _ => ⟨rfl, fun _ hp => hp⟩
  | [FileEntry.word _], _ => ⟨rfl, fun _ hp => hp⟩
  | FileEntry.word _ :: FileEntry.change _ :: _, _ => ⟨rfl, fun _ hp => hp⟩
  | FileEntry.word _ :: FileEntry.chunkData _ :: _, _ => ⟨rfl, fun _ hp => hp⟩
  | [FileEntry.word _, FileEntry.word _], _ => ⟨rfl, fun _ hp => hp⟩
  | FileEntry.word _ :: FileEntry.word _ :: FileEntry.change _ :: _, _ =>
    ⟨rfl, fun _ hp => hp⟩
  | FileEntry.word _ :: FileEntry.word _ :: FileEntry.chunkData _ :: _, _ =>
    ⟨rfl, fun _ hp => hp⟩
  | [FileEntry.word _, FileEntry.word _, FileEntry.word _], _ => ⟨rfl, fun _ hp => hp⟩
  | FileEntry.word _ :: FileEntry.word _ :: FileEntry.word _ :: FileEntry.change _ :: _, _ =>
    ⟨rfl, fun _ hp => hp⟩
  | FileEntry.word _ :: FileEntry.word _ :: FileEntry.word _ :: FileEntry.word _ :: _, _ =>
    ⟨rfl, fun _ hp => hp⟩
  | FileEntry.word x :: FileEntry.word y :: FileEntry.word z ::
      FileEntry.chunkData bs :: s4, w => by
    have hrec : readChunks w (FileEntry.word x :: FileEntry.word y :: FileEntry.word z :: FileEntry.chunkData bs :: s4) = readChunks { w with all_chunks := w.all_chunks ++ [{ x := x, y := y, z := z, blocks := bs, dirty := false }] } s4 := rfl
    rw [hrec]
    have ih4 := readChunks_shape s4 { w with all_chunks := w.all_chunks ++ [{ x := x, y := y, z := z, blocks := bs, dirty := false }] }
    refine ⟨ih4.1, ?_⟩
    intro p hp
    refine ih4.2 p ?_
    simp [hp]

lemma visOk_loadFromFile (w : World) (s : List FileEntry) (hw : visOk w) :
    visOk (loadFromFile w s).2 := by
  unfold loadFromFile
  match s with
  | [] => exact hw
  | FileEntry.change c :: s1 => exact hw
  | FileEntry.chunkData b :: s1 => exact hw
  | [FileEntry.word sd] => exact hw
  | FileEntry.word sd :: FileEntry.change c :: s2 => exact hw
  | FileEntry.word sd :: FileEntry.chunkData b :: s2 => exact hw
  | FileEntry.word sd :: FileEntry.word cnt :: s2 =>
    dsimp only
    match readChanges cnt.toNat s2 with
    | none => exact hw
    | some (cs, s3) =>
      dsimp only
      match s3 with
      | [] => exact hw
      | FileEntry.change c :: s4 => exact hw
      | FileEntry.chunkData b :: s4 => exact hw
      | FileEntry.word fov :: s4 =>
        dsimp only
        have hsh := readChunks_shape s4 { w with seed := sd, pending_block_changes := cs, field_of_view := fov }
        intro p hp
        rw [hsh.1] at hp
        exact hsh.2 p (hw p hp)

/-- C9: every state-changing operation of the World preserves the
invariant that each visible-set entry references a chunk currently owned
by the registry (and `clear` establishes it outright), so no visible-set
entry outlives its registry entry. -/
theorem visible_subset_registry
    (terrain : Int → Int → Int → Int → (Int → Int → Int → BLOCK_WDATA))
    (action : BLOCK_WDATA → Int → Int → Int → Chunk → Chunk × Bool)
    (H x y z px py pz : Int) (b : BLOCK_WDATA)
    (s : List FileEntry) (w : World)
    (hact : ∀ bv lx ly lz c, ((action bv lx ly lz c).1.x = c.x ∧
      (action bv lx ly lz c).1.y = c.y ∧ (action bv lx ly lz c).1.z = c.z))
    (hw : visOk w) :
    visOk (setBlock w x y z b) ∧
    visOk (changeBlock w x y z b) ∧
    visOk (blockAction action w x y z).1 ∧
    visOk (setChunkVisible terrain w x y z) ∧
    visOk (generateChunk terrain w x y z).1 ∧
    visOk (setPosition terrain H w px py pz) ∧
    visOk (clear w) ∧
    visOk (loadFromFile w s).2 := by
  refine ⟨visOk_setBlock w x y z b hw, visOk_changeBlock w x y z b hw,
    visOk_blockAction action w x y z hact hw,
    visOk_setChunkVisible terrain w x y z hw, ?_,
    visOk_setPosition terrain H w px py pz hw, visOk_clear w,
    visOk_loadFromFile w s hw⟩
  have hs := generateChunk_state terrain w x y z
  intro p hp
  rw [hs.1] at hp
  rw [hs.2]
  exact List.mem_append_left _ (hw p hp)

theorem visible_subset_registry_witness :
    visOk tieWorld ∧
    visOk (setBlock tieWorld 0 0 0 3) ∧
    visOk (setPosition flatTerrain 1 tieWorld 9 9 9) ∧
    visOk (clear tieWorld) := by
  have hw : visOk tieWorld := fun p hp => hp
  have h := visible_subset_registry flatTerrain (fun bv lx ly lz c => (c, false))
    1 0 0 0 9 9 9 3 [] tieWorld (fun bv lx ly lz c => ⟨rfl, rfl, rfl⟩) hw
  exact ⟨hw, h.1, h.2.2.2.2.2.1, h.2.2.2.2.2.2.1⟩

lemma mem_intRange (a b v : Int) : v ∈ intRange a b ↔ a ≤ v ∧ v ≤ b := by
  unfold intRange
  simp only [List.mem_map, List.mem_range]
  constructor
  · rintro ⟨k, hk, rfl⟩
    omega
  · rintro ⟨h1, h2⟩
    exact ⟨(v - a).toNat, by omega, by omega⟩

lemma nodup_intRange (a b : Int) : (intRange a b).Nodup := by
  unfold intRange
  refine List.Nodup.map ?_ (List.nodup_range _)
  intro k1 k2 h
  have h2 : a + (k1 : Int) = a + (k2 : Int) := h
  omega

lemma mem_distList (R d : Int) : d ∈ distList R ↔ 1 ≤ d ∧ d ≤ R := by
  unfold distList
  simp only [List.mem_map, List.mem_range]
  constructor
  · rintro ⟨k, hk, rfl⟩
    omega
  · rintro ⟨h1, h2⟩
    exact ⟨(d - 1).toNat, by omega, by omega⟩

lemma nodup_distList (R : Int) : (distList R).Nodup := by
  unfold distList
  refine List.Nodup.map ?_ (List.nodup_range _)
  intro k1 k2 h
  have h2 : (k1 : Int) + 1 = (k2 : Int) + 1 := h
  omega

lemma mem_cube (d : Int) (o : Int × Int × Int) :
    o ∈ cube d ↔ -d ≤ o.1 ∧ o.1 ≤ d ∧ -d ≤ o.2.1 ∧ o.2.1 ≤ d ∧
      -d ≤ o.2.2 ∧ o.2.2 ≤ d := by
  obtain ⟨ox, oy, oz⟩ := o
  unfold cube
  simp only [List.mem_flatMap, List.mem_map, mem_intRange, Prod.mk.injEq]
  constructor
  · rintro ⟨x, hx, y, hy, z, hz, rfl, rfl, rfl⟩
    exact ⟨hx.1, hx.2, hy.1, hy.2, hz.1, hz.2⟩
  · rintro ⟨h1, h2, h3, h4, h5, h6⟩
    exact ⟨ox, ⟨h1, h2⟩, oy, ⟨h3, h4⟩, oz, ⟨h5, h6⟩, rfl, rfl, rfl⟩

lemma nodup_cube (d : Int) : (cube d).Nodup := by
  unfold cube
  rw [List.nodup_flatMap]
  constructor
  · intro x hx
    rw [List.nodup_flatMap]
    constructor
    · intro y hy
      refine List.Nodup.map ?_ (nodup_intRange _ _)
      intro z1 z2 h
      simpa using h
    · refine List.Pairwise.imp ?_ ((nodup_intRange (-d) d) : _)
      intro y1 y2 hne p hp1 hp2
      simp only [List.mem_map] at hp1 hp2
      obtain ⟨z1, _, rfl⟩ := hp1
      obtain ⟨z2, _, heq⟩ := hp2
      exact hne (congrArg Prod.fst (congrArg Prod.snd heq)).symm
  · refine List.Pairwise.imp ?_ ((nodup_intRange (-d) d) : _)
    intro x1 x2 hne p hp1 hp2
    simp only [List.mem_flatMap, List.mem_map] at hp1 hp2
    obtain ⟨y1, _, z1, _, rfl⟩ := hp1
    obtain ⟨y2, _, z2, _, heq⟩ := hp2
    exact hne (congrArg Prod.fst heq).symm

lemma roundSqrtNat_ge (k m : Nat) (h : k * k ≤ m) :
    k ≤ (Nat.sqrt (4 * m) + 1) / 2 := by
  have h2 : 2 * k ≤ Nat.sqrt (4 * m) := by
    rw [Nat.le_sqrt]
    calc 2 * k * (2 * k) = 4 * (k * k) := by ring
      _ ≤ 4 * m := by omega
  omega

lemma roundSqrtInt_nonneg (n : Int) : 0 ≤ roundSqrtInt n :=
  Int.ofNat_nonneg _

lemma roundSqrtInt_zero : roundSqrtInt 0 = 0 := by decide

lemma roundSqrtInt_pos (n : Int) (h : 1 ≤ n) : 1 ≤ roundSqrtInt n := by
  unfold roundSqrtInt
  have h2 : 2 ≤ Nat.sqrt (4 * n.toNat) := by
    rw [Nat.le_sqrt]
    omega
  have h3 : 1 ≤ (Nat.sqrt (4 * n.toNat) + 1) / 2 := by omega
  exact_mod_cast h3

lemma roundSqrtInt_component (x n : Int) (hx : x * x ≤ n) :
    -(roundSqrtInt n) ≤ x ∧ x ≤ roundSqrtInt n := by
  have hxx : 0 ≤ x * x := mul_self_nonneg x
  have hn : 0 ≤ n := le_trans hxx hx
  have hcast : (↑(x.natAbs * x.natAbs) : Int) = x * x := Int.natAbs_mul_self
  have hNat : x.natAbs * x.natAbs ≤ n.toNat := by omega
  have hk := roundSqrtNat_ge x.natAbs n.toNat hNat
  unfold roundSqrtInt
  omega

/-- The filter corresponding to `shellStep`'s skip test: the offset keeps
its target inside the vertical range and its rounded Euclidean distance
equals the shell distance `d`. -/
def shellPass (H cy d : Int) (o : Int × Int × Int) : Bool :=
  decide (¬(cy + o.2.1 < 0 ∨ H ≤ cy + o.2.1 ∨
    roundSqrtInt (o.1 * o.1 + o.2.1 * o.2.1 + o.2.2 * o.2.2) ≠ d))

/-- The chunk coordinates that shell `d` of a recompute centered at
`(cx, cy, cz)` marks visible, in order. -/
def shellCoords (H cx cy cz d : Int) : List (Int × Int × Int) :=
  ((cube d).filter (shellPass H cy d)).map
    (fun o => (cx + o.1, cy + o.2.1, cz + o.2.2))

lemma foldl_visit_visible
    (terrain : Int → Int → Int → Int → (Int → Int → Int → BLOCK_WDATA))
    (H cx cy cz d : Int) (l : List (Int × Int × Int)) (w : World) :
    (l.foldl
      (fun wa o =>
        if cy + o.2.1 < 0 ∨ H ≤ cy + o.2.1 ∨
            roundSqrtInt (o.1 * o.1 + o.2.1 * o.2.1 + o.2.2 * o.2.2) ≠ d then wa
        else setChunkVisible terrain wa (cx + o.1) (cy + o.2.1) (cz + o.2.2))
      w).visible_chunks =
    w.visible_chunks ++ (l.filter (shellPass H cy d)).map
      (fun o => (cx + o.1, cy + o.2.1, cz + o.2.2)) := by
  induction l generalizing w with
  | nil => simp
  | cons o rest ih =>
    rw [List.foldl_cons, List.filter_cons]
    by_cases hc : cy + o.2.1 < 0 ∨ H ≤ cy + o.2.1 ∨
        roundSqrtInt (o.1 * o.1 + o.2.1 * o.2.1 + o.2.2 * o.2.2) ≠ d
    · have hp : shellPass H cy d o = false := decide_eq_false (not_not_intro hc)
      rw [if_pos hc, ih]
      simp [hp]
    · have hp : shellPass H cy d o = true := decide_eq_true hc
      rw [if_neg hc, ih, (setChunkVisible_state terrain w _ _ _).1]
      simp [hp]

lemma shellStep_visible
    (terrain : Int → Int → Int → Int → (Int → Int → Int → BLOCK_WDATA))
    (H cx cy cz d : Int) (w : World) :
    (shellStep terrain H cx cy cz d w).visible_chunks =
      w.visible_chunks ++ shellCoords H cx cy cz d := by
  unfold shellStep shellCoords
  exact foldl_visit_visible terrain H cx cy cz d (cube d) w

lemma foldl_shellStep_visible
    (terrain : Int → Int → Int → Int → (Int → Int → Int → BLOCK_WDATA))
    (H cx cy cz : Int) (L : List Int) (w : World) :
    ((L.foldl (fun wa d => shellStep terrain H cx cy cz d wa) w).visible_chunks) =
      w.visible_chunks ++ L.flatMap (fun d => shellCoords H cx cy cz d) := by
  induction L generalizing w with
  | nil => simp
  | cons d rest ih =>
    rw [List.foldl_cons, ih, shellStep_visible]
    simp [List.flatMap_cons]

lemma setPosition_visible
    (terrain : Int → Int → Int → Int → (Int → Int → Int → BLOCK_WDATA))
    (H : Int) (w : World) (px py pz : Int)
    (hrec : ¬(w.loaded = true ∧ getChunk px = w.cen_x ∧
      clampY H (getChunk py) = w.cen_y ∧ getChunk pz = w.cen_z)) :
    (setPosition terrain H w px py pz).visible_chunks =
      (getChunk px, clampY H (getChunk py), getChunk pz) ::
        (distList w.field_of_view).flatMap
          (fun d => shellCoords H (getChunk px) (clampY H (getChunk py)) (getChunk pz) d) := by
  unfold setPosition
  dsimp only
  rw [if_neg hrec]
  rw [show (getChunk px, clampY H (getChunk py), getChunk pz) ::
      (distList w.field_of_view).flatMap
        (fun d => shellCoords H (getChunk px) (clampY H (getChunk py)) (getChunk pz) d) =
      ([] ++ [(getChunk px, clampY H (getChunk py), getChunk pz)]) ++
      (distList w.field_of_view).flatMap
        (fun d => shellCoords H (getChunk px) (clampY H (getChunk py)) (getChunk pz) d)
    from by simp]
  rw [foldl_shellStep_visible]
  rw [(setChunkVisible_state terrain _ _ _ _).1]

lemma mem_shellCoords (H cx cy cz d : Int) (p : Int × Int × Int) :
    p ∈ shellCoords H cx cy cz d ↔
      0 ≤ p.2.1 ∧ p.2.1 < H ∧
      roundSqrtInt ((p.1 - cx) * (p.1 - cx) + (p.2.1 - cy) * (p.2.1 - cy) +
        (p.2.2 - cz) * (p.2.2 - cz)) = d := by
  obtain ⟨p1, p2, p3⟩ := p
  unfold shellCoords
  simp only [List.mem_map, List.mem_filter, mem_cube]
  constructor
  · rintro ⟨o, ⟨hcube, hpass⟩, heq⟩
    obtain ⟨o1, o2, o3⟩ := o
    have hp : ¬(cy + o2 < 0 ∨ H ≤ cy + o2 ∨
        roundSqrtInt (o1 * o1 + o2 * o2 + o3 * o3) ≠ d) := of_decide_eq_true hpass
    push_neg at hp
    obtain ⟨hA, hB, hC⟩ := hp
    simp only [Prod.mk.injEq] at heq
    obtain ⟨rfl, rfl, rfl⟩ := heq
    refine ⟨by omega, by omega, ?_⟩
    have e1 : cx + o1 - cx = o1 := by ring
    have e2 : cy + o2 - cy = o2 := by ring
    have e3 : cz + o3 - cz = o3 := by ring
    rw [e1, e2, e3, hC]
  · rintro ⟨h1, h2, h3⟩
    refine ⟨(p1 - cx, p2 - cy, p3 - cz), ⟨?_, ?_⟩, ?_⟩
    · dsimp only
      have hy2 := mul_self_nonneg (p2 - cy)
      have hz2 := mul_self_nonneg (p3 - cz)
      have hx2 := mul_self_nonneg (p1 - cx)
      have hb1 := roundSqrtInt_component (p1 - cx)
        ((p1 - cx) * (p1 - cx) + (p2 - cy) * (p2 - cy) + (p3 - cz) * (p3 - cz))
        (by linarith)
      have hb2 := roundSqrtInt_component (p2 - cy)
        ((p1 - cx) * (p1 - cx) + (p2 - cy) * (p2 - cy) + (p3 - cz) * (p3 - cz))
        (by linarith)
      have hb3 := roundSqrtInt_component (p3 - cz)
        ((p1 - cx) * (p1 - cx) + (p2 - cy) * (p2 - cy) + (p3 - cz) * (p3 - cz))
        (by linarith)
      rw [h3] at hb1 hb2 hb3
      exact ⟨by omega, by omega, by omega, by omega, by omega, by omega⟩
    · apply decide_eq_true
      intro hcon
      rcases hcon with hA | hB | hC
      · dsimp only at hA
        omega
      · dsimp only at hB
        omega
      · dsimp only at hC
        exact hC h3
    · simp only [Prod.mk.injEq]
      refine ⟨by ring, by ring, by ring⟩

/-- C4: after `setPosition` recomputes the visible set centered at the
clamped chunk coordinate `C = (cx, cy, cz)` with view radius
`R = field_of_view` (with `R ≥ 0` and at least one vertical chunk), the
visible set holds exactly the chunk coordinates whose rounded Euclidean
chunk-distance from `C` is at most `R` and whose vertical index lies in
`[0, HEIGHT-1]`, and no chunk coordinate appears twice. -/
theorem setPosition_shell_visibility
    (terrain : Int → Int → Int → Int → (Int → Int → Int → BLOCK_WDATA))
    (H : Int) (w : World) (px py pz : Int)
    (hH : 1 ≤ H) (hR : 0 ≤ w.field_of_view)
    (hrec : ¬(w.loaded = true ∧ getChunk px = w.cen_x ∧
      clampY H (getChunk py) = w.cen_y ∧ getChunk pz = w.cen_z)) :
    (∀ p : Int × Int × Int,
      p ∈ (setPosition terrain H w px py pz).visible_chunks ↔
        (roundSqrtInt ((p.1 - getChunk px) * (p.1 - getChunk px) +
            (p.2.1 - clampY H (getChunk py)) * (p.2.1 - clampY H (getChunk py)) +
            (p.2.2 - getChunk pz) * (p.2.2 - getChunk pz)) ≤ w.field_of_view ∧
          0 ≤ p.2.1 ∧ p.2.1 ≤ H - 1)) ∧
    (setPosition terrain H w px py pz).visible_chunks.Nodup := by
  have hvis := setPosition_visible terrain H w px py pz hrec
  set cx := getChunk px with hcx
  set cy := clampY H (getChunk py) with hcy
  set cz := getChunk pz with hcz
  have hcyrange : 0 ≤ cy ∧ cy ≤ H - 1 := by
    rw [hcy]
    unfold clampY
    omega
  constructor
  · intro p
    obtain ⟨p1, p2, p3⟩ := p
    rw [hvis]
    simp only [List.mem_cons, List.mem_flatMap, mem_distList, mem_shellCoords]
    constructor
    · rintro (heq | ⟨d, ⟨hd1, hd2⟩, hy1, hy2, hrs⟩)
      · simp only [Prod.mk.injEq] at heq
        obtain ⟨rfl, rfl, rfl⟩ := heq
        have hzero : (cx - cx) * (cx - cx) + (cy - cy) * (cy - cy) +
            (cz - cz) * (cz - cz) = 0 := by ring
        rw [hzero, roundSqrtInt_zero]
        exact ⟨hR, hcyrange.1, hcyrange.2⟩
      · exact ⟨by omega, hy1, by omega⟩
    · rintro ⟨hrs, hy1, hy2⟩
      by_cases hcen : p1 = cx ∧ p2 = cy ∧ p3 = cz
      · obtain ⟨rfl, rfl, rfl⟩ := hcen
        left
        rfl
      · right
        have hpos : 0 < (p1 - cx) * (p1 - cx) + (p2 - cy) * (p2 - cy) +
            (p3 - cz) * (p3 - cz) := by
          have hx2 := mul_self_nonneg (p1 - cx)
          have hy2n := mul_self_nonneg (p2 - cy)
          have hz2 := mul_self_nonneg (p3 - cz)
          rcases not_and_or.mp hcen with h | h
          · have hne : p1 - cx ≠ 0 := by omega
            have := mul_self_pos.mpr hne
            linarith
          · rcases not_and_or.mp h with h2 | h2
            · have hne : p2 - cy ≠ 0 := by omega
              have := mul_self_pos.mpr hne
              linarith
            · have hne : p3 - cz ≠ 0 := by omega
              have := mul_self_pos.mpr hne
              linarith
        refine ⟨roundSqrtInt ((p1 - cx) * (p1 - cx) + (p2 - cy) * (p2 - cy) +
            (p3 - cz) * (p3 - cz)), ⟨roundSqrtInt_pos _ (by omega), hrs⟩,
          hy1, by omega, rfl⟩
  · rw [hvis, List.nodup_cons]
    constructor
    · intro hmem
      simp only [List.mem_flatMap, mem_distList, mem_shellCoords] at hmem
      obtain ⟨d, ⟨hd1, _⟩, _, _, hrs⟩ := hmem
      have hzero : (cx - cx) * (cx - cx) + (cy - cy) * (cy - cy) +
          (cz - cz) * (cz - cz) = 0 := by ring
      rw [hzero, roundSqrtInt_zero] at hrs
      omega
    · rw [List.nodup_flatMap]
      constructor
      · intro d hd
        unfold shellCoords
        refine List.Nodup.map ?_ ((nodup_cube d).filter _)
        intro o1 o2 h
        obtain ⟨a1, b1, c1⟩ := o1
        obtain ⟨a2, b2, c2⟩ := o2
        simp only [Prod.mk.injEq] at h ⊢
        omega
      · refine List.Pairwise.imp ?_ ((nodup_distList w.field_of_view) : _)
        intro d1 d2 hne p hp1 hp2
        rw [mem_shellCoords] at hp1 hp2
        exact hne (hp1.2.2 ▸ hp2.2.2)

theorem setPosition_shell_visibility_witness :
    (1 : Int) ≤ 1 ∧ 0 ≤ emptyWorld.field_of_view ∧
    ¬(emptyWorld.loaded = true ∧ getChunk 0 = emptyWorld.cen_x ∧
      clampY 1 (getChunk 0) = emptyWorld.cen_y ∧ getChunk 0 = emptyWorld.cen_z) ∧
    (setPosition flatTerrain 1 emptyWorld 0 0 0).visible_chunks.Nodup :=
  ⟨by norm_num, by decide, by decide,
   (setPosition_shell_visibility flatTerrain 1 emptyWorld 0 0 0 (by norm_num)
     (by decide) (by decide)).2⟩
